import Mathlib

/-!
Verification of the rope library (boost::container::rope / rope_node).

Shallow embedding conventions:
* `rope_node<T>` is embedded as `RNode α`: a constructor packing the stored
  `weight_`, the two `unique_ptr` child slots (as `Option`), and the
  `fragment_` (as `List α`).  A null pointer is `none`.
* `size_t` arithmetic on user-supplied index/length arguments wraps modulo
  2^64; `addW`/`subW` make the wrap explicit.  Structural quantities that are
  bounded by the materialised data (list lengths, node counts, tree depth)
  are plain `Nat`.
* Fallible paths are explicit: dereferencing a null handle or reading a
  vector out of bounds (undefined behaviour in C++) and a thrown
  `std::out_of_range` are represented by dedicated result constructors
  (`none`, `.ub`, `.thrown`, ... as documented at each definition).
-/

/-- 2^64, the modulus of `size_t` arithmetic. -/
def W64 : Nat := 2 ^ 64

/-- Wrapping `size_t` addition. -/
def addW (a b : Nat) : Nat := (a + b) % W64

/-- Wrapping `size_t` subtraction. -/
def subW (a b : Nat) : Nat := (a + (W64 - b % W64)) % W64

/-- Embedding of `rope_node<T>`: stored weight, left and right child
handles (null = `none`), and the fragment.  Mirrors the four data members
`weight_`, `left_`, `right_`, `fragment_` of `node.hpp`. -/
inductive RNode (α : Type) : Type where
  | mk (weight : Nat) (left : Option (RNode α)) (right : Option (RNode α))
      (frag : List α) : RNode α

namespace RNode

variable {α : Type}

/-- The stored `weight_` field. -/
def weight : RNode α → Nat
  | mk w _ _ _ => w

/-- The `left_` child handle. -/
def left : RNode α → Option (RNode α)
  | mk _ l _ _ => l

/-- The `right_` child handle. -/
def right : RNode α → Option (RNode α)
  | mk _ _ r _ => r

/-- The `fragment_` field. -/
def frag : RNode α → List α
  | mk _ _ _ f => f

/-- `rope_node::is_leaf`: both child pointers are null. -/
def isLeaf : RNode α → Bool
  | mk _ none none _ => true
  | _ => false

/-- `rope_node::length`: a leaf reports its weight; otherwise
`weight_ + (right_ == nullptr ? 0 : right_->length())`. -/
def len : RNode α → Nat
  | mk w none none _ => w
  | mk w _ r _ =>
    w + (match r with
         | none => 0
         | some rr => len rr)

/-- `rope_node::tree_to_string`: a leaf yields its fragment; an internal
node concatenates the recursive results, a null child contributing the
empty sequence (the internal fragment is ignored). -/
def toStr : RNode α → List α
  | mk _ none none f => f
  | mk _ l r _ =>
    (match l with
     | none => []
     | some ll => toStr ll) ++
    (match r with
     | none => []
     | some rr => toStr rr)

/-- `rope_node::depth`: 0 for a leaf, else
`max(lResult + 1, rResult + 1)` where a null child contributes 0 before
the increment. -/
def depth : RNode α → Nat
  | mk _ none none _ => 0
  | mk _ l r _ =>
    max
      ((match l with
        | none => 0
        | some ll => depth ll) + 1)
      ((match r with
        | none => 0
        | some rr => depth rr) + 1)

/-- `rope_node::get_item`: at a leaf, `fragment_[index]` — an unchecked
access, `none` when `index` is past the fragment (undefined behaviour in
C++); at an internal node, recurse left when `index < weight_`, else
into the right child with `index - weight_` (dereferencing a null child
is undefined behaviour, again `none`). -/
def getItem : RNode α → Nat → Option α
  | mk _ none none f, i => f[i]?
  | mk w l r _, i =>
    if i < w then
      match l with
      | none => none
      | some ll => getItem ll i
    else
      match r with
      | none => none
      | some rr => getItem rr (i - w)

end RNode

/-- `std::basic_string::substr(pos, count)` on the embedded fragment:
throws `std::out_of_range` (`none`) when `pos` exceeds the size, else
yields at most `count` elements from `pos`. -/
def cppSubstr {α : Type} (f : List α) (pos count : Nat) : Option (List α) :=
  if f.length < pos then none else some ((f.drop pos).take count)

namespace RNode

variable {α : Type}

/-- `rope_node::substr(start, len)`.  Leaf: when `len < weight_` take
`fragment_.substr(start, len)` (which can throw), otherwise return the
whole fragment.  Internal: when `start < weight_` recurse left, and when
`start + len` (wrapping `size_t` sum) exceeds the weight also recurse
right — passing `weight_` as the start offset, exactly as the source
does — and append; when `start ≥ weight_` recurse right with
`start - weight_`.  A null child yields the empty container; `none`
propagates a thrown `std::out_of_range`. -/
def substr : RNode α → Nat → Nat → Option (List α)
  | mk w none none f, start, l =>
    if l < w then cppSubstr f start l else some f
  | mk w lc rc _, start, l =>
    if start < w then
      match (match lc with
             | none => some []
             | some ln => substr ln start l) with
      | none => none
      | some lRes =>
        if w < addW start l then
          match (match rc with
                 | none => some []
                 | some rn => substr rn w (l - (w - start))) with
        | none => none
        | some rRes => some (lRes ++ rRes)
        else some lRes
    else
      match rc with
      | none => some []
      | some rn => substr rn (start - w) l

/-- `rope_node::getLeaves`: the leaf nodes of the subtree in left-to-right
order (null children are skipped). -/
def getLeaves : RNode α → List (RNode α)
  | mk w none none f => [mk w none none f]
  | mk _ l r _ =>
    (match l with
     | none => []
     | some ll => getLeaves ll) ++
    (match r with
     | none => []
     | some rr => getLeaves rr)

end RNode

/-- The concatenation constructor `rope_node(handle l, handle r)`:
left child `a`, right child `b`, weight `a.length()`, empty fragment.
The C++ constructor dereferences the left handle, so `a` is a node, while
the right handle may be null. -/
def mkConcat {α : Type} (a : RNode α) (b : Option (RNode α)) : RNode α :=
  RNode.mk a.len (some a) b []

/-- The friend function `split(handle node, size_t index)` of `node.hpp`.
Returns `none` when the C++ computation faults: a thrown
`std::out_of_range` from the leaf's `substr`, or a null-handle dereference
(splitting a null child, or constructing a concatenation node whose left
handle is null).  Otherwise `some (first, second)` where either returned
handle may itself be null (the `index == weight` case hands back the raw
child slots). -/
def splitN {α : Type} : RNode α → Nat → Option (Option (RNode α) × Option (RNode α))
  | RNode.mk w none none f, idx =>
    match cppSubstr f idx (subW w idx) with
    | none => none
    | some secondFrag =>
      some (some (RNode.mk (f.take idx).length none none (f.take idx)),
            some (RNode.mk secondFrag.length none none secondFrag))
  | RNode.mk w (some ln) r f, idx =>
    if idx < w then
      match splitN ln idx with
      | none => none
      | some (s1, s2) =>
        match s2 with
        | none => none
        | some s2' =>
          some (some (RNode.mk idx s1 none f), some (mkConcat s2' r))
    else if w < idx then
      match r with
      | none => none
      | some rn =>
        match splitN rn (idx - w) with
        | none => none
        | some (t1, t2) => some (some (RNode.mk w (some ln) t1 f), t2)
    else
      some (some ln, r)
  | RNode.mk w none (some rn) f, idx =>
    if idx < w then none
    else if w < idx then
      match splitN rn (idx - w) with
      | none => none
      | some (t1, t2) => some (some (RNode.mk w none t1 f), t2)
    else
      some (none, some rn)

/-- Weak well-formedness: the invariant actually preserved by the public
rope operations.  A leaf stores its fragment length as weight; an internal
node has a present left child whose total length is the stored weight
(the right child may be absent, which `split` does produce). -/
def WFW {α : Type} : RNode α → Bool
  | RNode.mk w none none f => w == f.length
  | RNode.mk w (some l) r _ =>
    (w == l.len) && WFW l &&
    (match r with
     | none => true
     | some rr => WFW rr)
  | RNode.mk _ none (some _) _ => false

/-- Strong well-formedness: the invariant documented in `node.hpp`
(INVARIANTS comment) and the spec: a node is a leaf with correct weight,
or an internal node with both children present and weight equal to the
left subtree's length. -/
def SWF {α : Type} : RNode α → Bool
  | RNode.mk w none none f => w == f.length
  | RNode.mk w (some l) (some r) _ => (w == l.len) && SWF l && SWF r
  | RNode.mk _ _ _ _ => false

/-- Does the tree contain a node with exactly one present child?  Such a
node is forbidden by the documented invariants (`node.hpp` INVARIANTS,
spec data model I1). -/
def hasOneChild {α : Type} : RNode α → Bool
  | RNode.mk _ none none _ => false
  | RNode.mk _ (some _) none _ => true
  | RNode.mk _ none (some _) _ => true
  | RNode.mk _ (some l) (some r) _ => hasOneChild l || hasOneChild r

/-- Embedding of `rope<T>`: the owned root handle (`root_`). -/
structure Rope (α : Type) : Type where
  root : Option (RNode α)

/-- The `rope(const T& str)` constructor: a single leaf holding `str`,
with weight `str.size()`.  The default constructor is this at the empty
sequence. -/
def ropeOfList {α : Type} (s : List α) : Rope α :=
  ⟨some (RNode.mk s.length none none s)⟩

/-- `rope::length`: 0 when the root is absent, else `root_->length()`. -/
def ropeLen {α : Type} (R : Rope α) : Nat :=
  match R.root with
  | none => 0
  | some n => n.len

/-- `rope::to_string`: empty when the root is absent, else
`root_->tree_to_string()`. -/
def ropeToStr {α : Type} (R : Rope α) : List α :=
  match R.root with
  | none => []
  | some n => n.toStr

/-- Result of `rope::at`: either the thrown `ERROR_OOB_ROPE`, or the
value of the underlying unchecked `get_item` access (`ok none` being an
out-of-bounds, undefined access at a leaf or a null-child dereference). -/
inductive AtRes (α : Type) : Type where
  | oob : AtRes α
  | ok (v : Option α) : AtRes α
deriving DecidableEq

/-- `rope::at(index)`: throws `ERROR_OOB_ROPE` only when the root is
absent; otherwise delegates to the node's element access
(the call `getCharByIndex` in `rope.hpp`, whose definition in `node.hpp`
is `get_item`) with no bounds check at the rope boundary. -/
def ropeAt {α : Type} (R : Rope α) (i : Nat) : AtRes α :=
  match R.root with
  | none => AtRes.oob
  | some n => AtRes.ok (n.getItem i)

/-- Result of `rope::substr`: `oob` is the boundary throw of
`ERROR_OOB_ROPE`; `thrown` is a `std::out_of_range` propagating out of the
node-level traversal (a leaf's `fragment_.substr` with `pos > size()`);
`ok` carries the returned container. -/
inductive SubRes (α : Type) : Type where
  | oob : SubRes α
  | thrown : SubRes α
  | ok (v : List α) : SubRes α
deriving DecidableEq

/-- `rope::substr(start, len)`: throws `ERROR_OOB_ROPE` when
`start > length()` or the wrapping `size_t` sum `start + len` exceeds
`length()`; otherwise delegates to the node traversal (the call
`getSubstring` in `rope.hpp`, defined as `substr` in `node.hpp`); a
null root then faults, modelled as `thrown`. -/
def ropeSubstr {α : Type} (R : Rope α) (start l : Nat) : SubRes α :=
  let actualLength := ropeLen R
  if start > actualLength ∨ addW start l > actualLength then SubRes.oob
  else
    match R.root with
    | none => SubRes.thrown
    | some n =>
      match n.substr start l with
      | none => SubRes.thrown
      | some v => SubRes.ok v

/-- Result of a mutating rope operation: `oob st` is the boundary throw of
`ERROR_OOB_ROPE` with the rope left in state `st`; `fault` is any
mid-operation `std::out_of_range` or undefined behaviour (null-handle
dereference) reached after the boundary check; `ok st` is normal
completion in state `st`. -/
inductive MutRes (α : Type) : Type where
  | oob (st : Rope α) : MutRes α
  | fault : MutRes α
  | ok (st : Rope α) : MutRes α

/-- `rope::insert(i, const rope& r)`: throws `ERROR_OOB_ROPE` when
`length() < i` (before touching the tree, so the state is unchanged);
otherwise deep-copies `r`, splits the owned tree at `i` and rebuilds the
root as `concat(concat(first, copy), second)`.  A deep copy of a pure
value is the value itself; copying a null root or splitting a null root
dereferences null (`fault`). -/
def ropeIns {α : Type} (R : Rope α) (i : Nat) (S : Rope α) : MutRes α :=
  if ropeLen R < i then MutRes.oob R
  else
    match S.root with
    | none => MutRes.fault
    | some sroot =>
      match R.root with
      | none => MutRes.fault
      | some n =>
        match splitN n i with
        | none => MutRes.fault
        | some (first, second) =>
          match first with
          | none => MutRes.fault
          | some f =>
            MutRes.ok ⟨some (mkConcat (mkConcat f (some sroot)) second)⟩

/-- `rope::append(const rope& r)`: no bounds check; rebuilds the root as
`concat(root_, copy_of(r.root_))`.  Dereferencing a null handle (either
root) is undefined behaviour (`none`). -/
def ropeAppend {α : Type} (R S : Rope α) : Option (Rope α) :=
  match R.root, S.root with
  | some n, some sroot => some ⟨some (mkConcat n (some sroot))⟩
  | _, _ => none

/-- `rope::erase(start, len)`: throws `ERROR_OOB_ROPE` when
`start > length()` or the wrapping `size_t` sum `start + len` exceeds
`length()` (state unchanged); otherwise splits at `start`, splits the
second part at `len` (splitting a null handle is undefined behaviour),
discards the middle and rebuilds the root as `concat(first, last)`. -/
def ropeErase {α : Type} (R : Rope α) (start l : Nat) : MutRes α :=
  let actualLength := ropeLen R
  if start > actualLength ∨ addW start l > actualLength then MutRes.oob R
  else
    match R.root with
    | none => MutRes.fault
    | some n =>
      match splitN n start with
      | none => MutRes.fault
      | some (f1, s1) =>
        match s1 with
        | none => MutRes.fault
        | some s1' =>
          match splitN s1' l with
          | none => MutRes.fault
          | some (_, s2) =>
            match f1 with
            | none => MutRes.fault
            | some f1' => MutRes.ok ⟨some (mkConcat f1' s2)⟩

/-- The `while (n)` loop of the `fib` helper in `rope.hpp`: matrix-power
Fibonacci with every operation performed in wrapping `size_t`
arithmetic.  Parameter order follows the locals `(n, a, b, c, d, rc,
rd)`; the loop halves `n` each pass, so an explicit structural fuel of
at least `n` iterations covers every execution. -/
def fibLoop : Nat → Nat → Nat → Nat → Nat → Nat → Nat → Nat → Nat
  | 0, _, _, _, _, _, rc, _ => rc
  | fuel + 1, n, a, b, c, d, rc, rd =>
    if n = 0 then rc
    else
      fibLoop fuel (n / 2) ((a * a + b * c) % W64) ((a * b + b * d) % W64)
        ((c * a + d * c) % W64) ((c * b + d * d) % W64)
        (if n % 2 = 1 then (rc * a + rd * c) % W64 else rc)
        (if n % 2 = 1 then (rc * b + rd * d) % W64 else rd)

/-- The free function `fib(n)` of `rope.hpp` with its initial state
`a = b = c = 1, d = 0, rc = 0, rd = 1`. -/
def fibCode (n : Nat) : Nat := fibLoop n n 1 1 1 0 0 1

/-- The `while (a <= len)` loop of `build_fib_list`, with explicit fuel
(the C++ loop terminates because the Fibonacci iterates grow). -/
def fibListAux : Nat → Nat → Nat → Nat → List Nat
  | 0, _, _, _ => []
  | fuel + 1, a, b, l =>
    if a ≤ l then (if 0 < a then [b] else []) ++ fibListAux fuel b (a + b) l
    else []

/-- `build_fib_list(len)` of `rope.hpp`: starting from `a = 0, b = 1`,
push `b` whenever `0 < a ≤ len` and step `(a, b) ← (b, a + b)`. -/
def fibList (l : Nat) : List Nat := fibListAux (l + 3) 0 1 l

/-- `rope::is_balanced`: true when the root is absent, else
`length() ≥ fib(depth + 2)` computed with the wrapping `fib` helper. -/
def ropeIsBalanced {α : Type} (R : Rope α) : Bool :=
  match R.root with
  | none => true
  | some n => fibCode (n.depth + 2) ≤ ropeLen R

/-- Result of a loop of `rope::balance`: `ok`, undefined behaviour `ub`
(an out-of-bounds `std::vector` access or a null-handle dereference), or
exhausted fuel (the C++ loops carry no fuel; `nofuel` never occurs for
the executions analysed below). -/
inductive BalRes (σ : Type) : Type where
  | ok (s : σ) : BalRes σ
  | ub : BalRes σ
  | nofuel : BalRes σ

/-- The inner slot-advance loop of `rope::balance`
(`while (i < max_i && len >= intervals[i + 1]) { ... ++i; }`), reading
`intervals[i + 1]` and `nodes[i]`, concatenating an occupied slot into the
accumulator and clearing the slot when the grown length reaches the next
interval bound. -/
def balAdv {α : Type} :
    Nat → Nat → Nat → RNode α → List (Option (RNode α)) → List Nat → Nat →
    BalRes (Nat × Nat × RNode α × List (Option (RNode α)))
  | 0, _, _, _, _, _, _ => BalRes.nofuel
  | fuel + 1, i, l, acc, nodes, intervals, maxI =>
    if i < maxI then
      match intervals[i + 1]? with
      | none => BalRes.ub
      | some nxt =>
        if nxt ≤ l then
          match nodes[i]? with
          | none => BalRes.ub
          | some slot =>
            match slot with
            | none => balAdv fuel (i + 1) l acc nodes intervals maxI
            | some sn =>
              let acc' := mkConcat sn (some acc)
              let l' := acc'.len
              let nodes' := if nxt ≤ l' then nodes.set i none else nodes
              balAdv fuel (i + 1) l' acc' nodes' intervals maxI
        else BalRes.ok (i, l, acc, nodes)
    else BalRes.ok (i, l, acc, nodes)

/-- The `while (!inserted)` loop of `rope::balance`: advance, then either
swap the accumulator into the empty target slot (updating
`currMaxInterval`), or absorb the occupied slot and loop. -/
def balIns {α : Type} :
    Nat → Nat → Nat → RNode α → List (Option (RNode α)) → List Nat → Nat → Nat →
    BalRes (List (Option (RNode α)) × Nat)
  | 0, _, _, _, _, _, _, _ => BalRes.nofuel
  | fuel + 1, i, l, acc, nodes, intervals, maxI, curMax =>
    match balAdv (fuel + 1) i l acc nodes intervals maxI with
    | BalRes.nofuel => BalRes.nofuel
    | BalRes.ub => BalRes.ub
    | BalRes.ok (i', l', acc', nodes') =>
      match nodes'[i']? with
      | none => BalRes.ub
      | some slot =>
        match slot with
        | none => BalRes.ok (nodes'.set i' (some acc'), max curMax i')
        | some sn =>
          let acc'' := mkConcat sn (some acc')
          let l'' := acc''.len
          match intervals[i' + 1]? with
          | none => BalRes.ub
          | some nxt =>
            let nodes'' := if nxt ≤ l'' then nodes'.set i' none else nodes'
            balIns fuel i' l'' acc'' nodes'' intervals maxI curMax

/-- The leaf loop of `rope::balance` (`for (auto& leaf : leaves)`):
leaves of zero length are skipped, every other leaf is inserted into the
slot vector. -/
def balAll {α : Type} :
    Nat → List (RNode α) → List (Option (RNode α)) → List Nat → Nat → Nat →
    BalRes (List (Option (RNode α)) × Nat)
  | _, [], nodes, _, _, curMax => BalRes.ok (nodes, curMax)
  | fuel, lf :: rest, nodes, intervals, maxI, curMax =>
    if 0 < lf.len then
      match balIns fuel 0 lf.len lf nodes intervals maxI curMax with
      | BalRes.nofuel => BalRes.nofuel
      | BalRes.ub => BalRes.ub
      | BalRes.ok (nodes', curMax') => balAll fuel rest nodes' intervals maxI curMax'
    else balAll fuel rest nodes intervals maxI curMax

/-- The final fold of `rope::balance`
(`for (int idx = currMaxInterval; idx >= 0; --idx)`): the counter `c + 1`
processes slot index `c`; each occupied slot is concatenated to the right
of the accumulator; concatenating onto a null accumulator dereferences
null. -/
def balFold {α : Type} :
    Nat → Option (RNode α) → List (Option (RNode α)) → BalRes (Option (RNode α))
  | 0, acc, _ => BalRes.ok acc
  | c + 1, acc, nodes =>
    match nodes[c]? with
    | none => BalRes.ub
    | some slot =>
      match slot with
      | none => balFold c acc nodes
      | some t =>
        match acc with
        | none => BalRes.ub
        | some a => balFold c (some (mkConcat a (some t))) nodes

/-- `rope::balance()`: a no-op when `is_balanced()`; otherwise build the
Fibonacci interval list and the (equally long) slot vector, collect the
leaves, insert each non-empty leaf, then read `nodes[currMaxInterval]`
(an out-of-bounds vector access when the slot vector is empty — the
interval list of a zero-length rope is empty) and fold the remaining
slots into the new root. -/
def ropeBalance {α : Type} (R : Rope α) (fuel : Nat) : BalRes (Rope α) :=
  if ropeIsBalanced R then BalRes.ok R
  else
    match R.root with
    | none => BalRes.ub
    | some root =>
      let intervals := fibList (ropeLen R)
      let nodes : List (Option (RNode α)) := List.replicate intervals.length none
      let maxI := subW intervals.length 1
      match balAll fuel root.getLeaves nodes intervals maxI 0 with
      | BalRes.nofuel => BalRes.nofuel
      | BalRes.ub => BalRes.ub
      | BalRes.ok (nodes', curMax) =>
        match nodes'[curMax]? with
        | none => BalRes.ub
        | some accSlot =>
          match balFold (curMax + 1) accSlot (nodes'.set curMax none) with
          | BalRes.nofuel => BalRes.nofuel
          | BalRes.ub => BalRes.ub
          | BalRes.ok accF => BalRes.ok ⟨accF⟩

/-- Length contributed by an optional handle: a null handle represents
the empty string. -/
def optLen {α : Type} : Option (RNode α) → Nat
  | none => 0
  | some n => n.len

/-- Content of an optional handle. -/
def optToStr {α : Type} : Option (RNode α) → List α
  | none => []
  | some n => n.toStr

/-- Weak well-formedness of an optional handle. -/
def optWFW {α : Type} : Option (RNode α) → Bool
  | none => true
  | some n => WFW n

theorem subW_eq {a b : Nat} (h : b ≤ a) (h2 : a < W64) : subW a b = a - b := by
  have hb : b < W64 := lt_of_le_of_lt h h2
  unfold subW W64 at *
  rw [Nat.mod_eq_of_lt hb]
  omega

theorem addW_eq {a b : Nat} (h : a + b < W64) : addW a b = a + b := by
  unfold addW W64 at *
  omega

/-- Strong induction over `RNode` by `sizeOf`, the workhorse for the
recursive operations on trees with optional children. -/
theorem RNode.sizeInd {α : Type} {P : RNode α → Prop}
    (h : ∀ N : RNode α, (∀ M : RNode α, sizeOf M < sizeOf N → P M) → P N)
    (N : RNode α) : P N := by
  generalize hn : sizeOf N = n
  induction n using Nat.strong_induction_on generalizing N with
  | _ n ih =>
    subst hn
    exact h N (fun M hlt => ih _ hlt M rfl)

theorem RNode.sizeOf_left {α : Type} (w : Nat) (ll : RNode α)
    (r : Option (RNode α)) (f : List α) :
    sizeOf ll < sizeOf (RNode.mk w (some ll) r f) := by
  simp only [RNode.mk.sizeOf_spec, Option.some.sizeOf_spec]
  omega

theorem RNode.sizeOf_right {α : Type} (w : Nat) (l : Option (RNode α))
    (rr : RNode α) (f : List α) :
    sizeOf rr < sizeOf (RNode.mk w l (some rr) f) := by
  simp only [RNode.mk.sizeOf_spec, Option.some.sizeOf_spec]
  omega

theorem RNode.len_leaf {α : Type} (w : Nat) (f : List α) :
    (RNode.mk w none none f).len = w := rfl

theorem RNode.len_lsome {α : Type} (w : Nat) (ll : RNode α)
    (r : Option (RNode α)) (f : List α) :
    (RNode.mk w (some ll) r f).len = w + optLen r := by
  cases r <;> rfl

theorem RNode.len_rsome {α : Type} (w : Nat) (rr : RNode α) (f : List α) :
    (RNode.mk w none (some rr) f).len = w + rr.len := rfl

theorem RNode.toStr_leaf {α : Type} (w : Nat) (f : List α) :
    (RNode.mk w none none f).toStr = f := rfl

theorem RNode.toStr_lsome {α : Type} (w : Nat) (ll : RNode α)
    (r : Option (RNode α)) (f : List α) :
    (RNode.mk w (some ll) r f).toStr = ll.toStr ++ optToStr r := by
  cases r <;> rfl

theorem WFW_leaf {α : Type} (w : Nat) (f : List α) :
    WFW (RNode.mk w none none f) = (w == f.length) := rfl

theorem WFW_lsome {α : Type} (w : Nat) (ll : RNode α)
    (r : Option (RNode α)) (f : List α) :
    WFW (RNode.mk w (some ll) r f) = ((w == ll.len) && WFW ll && optWFW r) := by
  cases r <;> rfl

/-- Under weak well-formedness the `length()` method agrees with the
length of the flattened content. -/
theorem len_eq_toStr_length {α : Type} :
    ∀ N : RNode α, WFW N = true → N.len = N.toStr.length := by
  intro N
  induction N using RNode.sizeInd with
  | _ N ih =>
    obtain ⟨w, l, r, f⟩ := N
    cases l with
    | none =>
      cases r with
      | none =>
        intro hw
        rw [WFW_leaf] at hw
        simp only [RNode.len_leaf, RNode.toStr_leaf]
        exact beq_iff_eq.mp hw
      | some rr =>
        intro hw
        exact absurd hw (by simp [WFW])
    | some ll =>
      intro hw
      rw [WFW_lsome] at hw
      simp only [Bool.and_eq_true, beq_iff_eq] at hw
      obtain ⟨⟨hwl, hwfl⟩, hwfr⟩ := hw
      rw [RNode.len_lsome, RNode.toStr_lsome, List.length_append]
      have h1 : ll.len = ll.toStr.length :=
        ih ll (RNode.sizeOf_left w ll r f) hwfl
      cases r with
      | none => simp [optLen, optToStr, hwl, h1]
      | some rr =>
        have h2 : rr.len = rr.toStr.length :=
          ih rr (RNode.sizeOf_right w (some ll) rr f) hwfr
        simp [optLen, optToStr, hwl, h1, h2]

/-- Strong well-formedness implies weak well-formedness. -/
theorem SWF_imp_WFW {α : Type} : ∀ N : RNode α, SWF N = true → WFW N = true := by
  intro N
  induction N using RNode.sizeInd with
  | _ N ih =>
    obtain ⟨w, l, r, f⟩ := N
    cases l with
    | none =>
      cases r with
      | none => intro h; exact h
      | some rr => intro h; exact absurd h (by simp [SWF])
    | some ll =>
      cases r with
      | none => intro h; exact absurd h (by simp [SWF])
      | some rr =>
        intro h
        simp only [SWF, Bool.and_eq_true] at h
        obtain ⟨⟨hw, hl⟩, hr⟩ := h
        rw [WFW_lsome]
        simp only [Bool.and_eq_true, optWFW]
        exact ⟨⟨hw, ih ll (RNode.sizeOf_left w ll (some rr) f) hl⟩,
               ih rr (RNode.sizeOf_right w (some ll) rr f) hr⟩

theorem splitN_leaf {α : Type} (w : Nat) (f : List α) (idx : Nat) :
    splitN (RNode.mk w none none f) idx =
      (match cppSubstr f idx (subW w idx) with
       | none => none
       | some s =>
         some (some (RNode.mk (f.take idx).length none none (f.take idx)),
               some (RNode.mk s.length none none s))) := rfl

theorem splitN_lsome {α : Type} (w : Nat) (ll : RNode α) (r : Option (RNode α))
    (f : List α) (idx : Nat) :
    splitN (RNode.mk w (some ll) r f) idx =
      (if idx < w then
        match splitN ll idx with
        | none => none
        | some (s1, s2) =>
          match s2 with
          | none => none
          | some s2' => some (some (RNode.mk idx s1 none f), some (mkConcat s2' r))
      else if w < idx then
        match r with
        | none => none
        | some rn =>
          match splitN rn (idx - w) with
          | none => none
          | some (t1, t2) => some (some (RNode.mk w (some ll) t1 f), t2)
      else some (some ll, r)) := by
  cases r with
  | none => rw [splitN.eq_2]
  | some rr => rw [splitN.eq_3]

theorem RNode.getItem_lsome {α : Type} (w : Nat) (ll : RNode α)
    (r : Option (RNode α)) (f : List α) (i : Nat) :
    (RNode.mk w (some ll) r f).getItem i =
      if i < w then ll.getItem i
      else
        match r with
        | none => none
        | some rr => rr.getItem (i - w) := by
  cases r <;> rfl

/-- Under weak well-formedness the unchecked `get_item` traversal returns
exactly the optional element of the flattened content: the element at
in-bounds positions, and the out-of-bounds (undefined) access `none`
past the end. -/
theorem getItem_eq_getElem {α : Type} :
    ∀ N : RNode α, WFW N = true → ∀ i, N.getItem i = N.toStr[i]? := by
  intro N
  induction N using RNode.sizeInd with
  | _ N ih =>
    obtain ⟨w, l, r, f⟩ := N
    cases l with
    | none =>
      cases r with
      | some rr => intro hw; exact absurd hw (by simp [WFW])
      | none => intro _ i; rfl
    | some ll =>
      intro hw i
      rw [WFW_lsome] at hw
      simp only [Bool.and_eq_true, beq_iff_eq] at hw
      obtain ⟨⟨hwl, hwfl⟩, hwfr⟩ := hw
      have hlen : ll.toStr.length = w := by
        rw [← len_eq_toStr_length ll hwfl, hwl]
      rw [RNode.getItem_lsome, RNode.toStr_lsome, List.getElem?_append, hlen]
      by_cases hi : i < w
      · rw [if_pos hi, if_pos hi]
        exact ih ll (RNode.sizeOf_left w ll r f) hwfl i
      · rw [if_neg hi, if_neg hi]
        cases r with
        | none => simp [optToStr]
        | some rr =>
          simp only [optToStr]
          exact ih rr (RNode.sizeOf_right w (some ll) rr f)
            (by simpa [optWFW] using hwfr) (i - w)

/-- The behaviour of `split` on weakly well-formed trees with a split
point inside the represented string: the call completes (no throw, no
null dereference), the first part is a node representing the first `k`
elements, the second handle represents the remainder, and both parts are
again weakly well-formed with `length()` methods reporting `k` and
`length - k`. -/
theorem split_spec {α : Type} :
    ∀ N : RNode α, WFW N = true → ∀ k, k ≤ N.len → N.len < W64 →
    ∃ (L : RNode α) (R2 : Option (RNode α)),
      splitN N k = some (some L, R2) ∧
      WFW L = true ∧ L.len = k ∧ L.toStr = N.toStr.take k ∧
      optWFW R2 = true ∧ optLen R2 = N.len - k ∧
      optToStr R2 = N.toStr.drop k := by
  intro N
  induction N using RNode.sizeInd with
  | _ N ih =>
    obtain ⟨w, l, r, f⟩ := N
    cases l with
    | none =>
      cases r with
      | some rr => intro hw; exact absurd hw (by simp [WFW])
      | none =>
        intro hw k hk hreal
        rw [WFW_leaf] at hw
        have hwf : w = f.length := beq_iff_eq.mp hw
        rw [RNode.len_leaf] at hk hreal
        have hsub : subW w k = w - k := subW_eq hk hreal
        have hnlt : ¬ f.length < k := by omega
        have hdlen : (f.drop k).length = w - k := by
          rw [List.length_drop]; omega
        have hsecond : (f.drop k).take (w - k) = f.drop k := by
          rw [List.take_of_length_le (le_of_eq hdlen)]
        have htlen : (f.take k).length = k := by
          rw [List.length_take]; omega
        refine ⟨RNode.mk (f.take k).length none none (f.take k),
                some (RNode.mk ((f.drop k).take (w - k)).length none none
                  ((f.drop k).take (w - k))), ?_, ?_, ?_, ?_, ?_, ?_, ?_⟩
        · rw [splitN_leaf, hsub]
          simp only [cppSubstr, if_neg hnlt]
        · rw [WFW_leaf]; exact beq_self_eq_true _
        · rw [RNode.len_leaf]; exact htlen
        · rw [RNode.toStr_leaf, RNode.toStr_leaf]
        · simp only [optWFW, WFW_leaf]; exact beq_self_eq_true _
        · simp only [optLen, RNode.len_leaf, hsecond, hdlen, RNode.len_leaf]
        · simp only [optToStr, RNode.toStr_leaf, hsecond]
    | some ll =>
      intro hw k hk hreal
      rw [WFW_lsome] at hw
      simp only [Bool.and_eq_true, beq_iff_eq] at hw
      obtain ⟨⟨hwl, hwfl⟩, hwfr⟩ := hw
      rw [RNode.len_lsome] at hk hreal
      have hllreal : ll.len < W64 := by omega
      have hllstr : ll.toStr.length = ll.len := (len_eq_toStr_length ll hwfl).symm
      rcases Nat.lt_trichotomy k w with hlt | heq | hgt
      · -- split point strictly inside the left subtree
        have hkll : k ≤ ll.len := by omega
        obtain ⟨L1, R2', hsplit, hwfL1, hlenL1, hstrL1, hwfR2', hlenR2', hstrR2'⟩ :=
          ih ll (RNode.sizeOf_left w ll r f) hwfl k hkll hllreal
        cases R2' with
        | none =>
          exfalso
          simp only [optLen] at hlenR2'
          omega
        | some s2' =>
          simp only [optWFW, optLen, optToStr] at hwfR2' hlenR2' hstrR2'
          refine ⟨RNode.mk k (some L1) none f, some (mkConcat s2' r), ?_, ?_, ?_, ?_, ?_, ?_, ?_⟩
          · rw [splitN_lsome, if_pos hlt, hsplit]
          · rw [WFW_lsome]
            simp only [Bool.and_eq_true, beq_iff_eq, optWFW]
            refine ⟨⟨hlenL1.symm, hwfL1⟩, ?_⟩
            trivial
          · rw [RNode.len_lsome]; simp [optLen]
          · rw [RNode.toStr_lsome, RNode.toStr_lsome, List.take_append_eq_append_take]
            have h0 : k - ll.toStr.length = 0 := by omega
            simp [optToStr, h0, hstrL1]
          · simp only [optWFW, mkConcat, WFW_lsome]
            simp only [Bool.and_eq_true, beq_iff_eq, optWFW]
            exact ⟨⟨trivial, hwfR2'⟩, hwfr⟩
          · simp only [optLen, mkConcat, RNode.len_lsome]
            omega
          · simp only [optToStr, mkConcat, RNode.toStr_lsome,
              List.drop_append_eq_append_drop]
            have h0 : k - ll.toStr.length = 0 := by omega
            simp [h0, hstrR2']
      · -- split point exactly at the weight: hand back the child slots
        refine ⟨ll, r, ?_, hwfl, by omega, ?_, hwfr, ?_, ?_⟩
        · rw [splitN_lsome, if_neg (by omega), if_neg (by omega)]
        · rw [RNode.toStr_lsome, show k = ll.toStr.length by omega]
          exact (List.take_left _ _).symm
        · rw [RNode.len_lsome]; omega
        · rw [RNode.toStr_lsome, show k = ll.toStr.length by omega]
          exact (List.drop_left _ _).symm
      · -- split point inside the right subtree
        cases r with
        | none =>
          exfalso
          simp only [optLen] at hk
          omega
        | some rn =>
          simp only [optWFW] at hwfr
          simp only [optLen] at hk hreal
          have hkrn : k - w ≤ rn.len := by omega
          obtain ⟨T1, T2, hsplit, hwfT1, hlenT1, hstrT1, hwfT2, hlenT2, hstrT2⟩ :=
            ih rn (RNode.sizeOf_right w (some ll) rn f) hwfr (k - w) hkrn (by omega)
          have hrnstr : rn.toStr.length = rn.len := (len_eq_toStr_length rn hwfr).symm
          refine ⟨RNode.mk w (some ll) (some T1) f, T2, ?_, ?_, ?_, ?_, hwfT2, ?_, ?_⟩
          · rw [splitN_lsome]
            simp only [if_neg (by omega : ¬ k < w), if_pos hgt, hsplit]
          · rw [WFW_lsome]
            simp only [Bool.and_eq_true, beq_iff_eq, optWFW]
            exact ⟨⟨hwl, hwfl⟩, hwfT1⟩
          · rw [RNode.len_lsome]; simp only [optLen, hlenT1]; omega
          · rw [RNode.toStr_lsome, RNode.toStr_lsome, List.take_append_eq_append_take,
              List.take_of_length_le (by omega : ll.toStr.length ≤ k)]
            simp only [optToStr, hstrT1, hllstr, hwl]
          · rw [hlenT2, RNode.len_lsome]; simp only [optLen]; omega
          · rw [hstrT2, RNode.toStr_lsome, List.drop_append_eq_append_drop,
              List.drop_of_length_le (by omega : ll.toStr.length ≤ k)]
            simp only [optToStr, List.nil_append, hllstr, hwl]

theorem ropeLen_some {α : Type} {R : Rope α} {N : RNode α} (h : R.root = some N) :
    ropeLen R = N.len := by
  unfold ropeLen
  rw [h]

theorem ropeToStr_some {α : Type} {R : Rope α} {N : RNode α} (h : R.root = some N) :
    ropeToStr R = N.toStr := by
  unfold ropeToStr
  rw [h]

theorem len_mkConcat {α : Type} (a : RNode α) (b : Option (RNode α)) :
    (mkConcat a b).len = a.len + optLen b := by
  rw [mkConcat, RNode.len_lsome]

theorem toStr_mkConcat {α : Type} (a : RNode α) (b : Option (RNode α)) :
    (mkConcat a b).toStr = a.toStr ++ optToStr b := by
  rw [mkConcat, RNode.toStr_lsome]

theorem WFW_mkConcat {α : Type} (a : RNode α) (b : Option (RNode α))
    (ha : WFW a = true) (hb : optWFW b = true) : WFW (mkConcat a b) = true := by
  rw [mkConcat, WFW_lsome]
  simp [ha, hb]

/-- On strongly well-formed trees the second handle returned by an
in-range `split` is never null: the `index == weight` case hands back a
present right child, and every other case builds or propagates a node. -/
theorem split_snd_ne_none {α : Type} :
    ∀ N : RNode α, SWF N = true → ∀ k, k ≤ N.len →
    ∀ a b, splitN N k = some (a, b) → b ≠ none := by
  intro N
  induction N using RNode.sizeInd with
  | _ N ih =>
    obtain ⟨w, l, r, f⟩ := N
    cases l with
    | none =>
      cases r with
      | some rr => intro hw; exact absurd hw (by simp [SWF])
      | none =>
        intro _ k _ a b hab
        rw [splitN_leaf] at hab
        rcases hsub : cppSubstr f k (subW w k) with _ | s
        · rw [hsub] at hab; exact absurd hab (by simp)
        · rw [hsub] at hab
          simp only [Option.some.injEq, Prod.mk.injEq] at hab
          rw [← hab.2]
          exact Option.some_ne_none _
    | some ll =>
      cases r with
      | none => intro hw; exact absurd hw (by simp [SWF])
      | some rr =>
        intro hw k hk a b hab
        simp only [SWF, Bool.and_eq_true, beq_iff_eq] at hw
        obtain ⟨⟨hwl, hl⟩, hr⟩ := hw
        rw [splitN_lsome] at hab
        rcases Nat.lt_trichotomy k w with hlt | heq | hgt
        · rw [if_pos hlt] at hab
          rcases hsp : splitN ll k with _ | ⟨s1, s2⟩
          · rw [hsp] at hab; exact absurd hab (by simp)
          · rw [hsp] at hab
            cases s2 with
            | none => exact absurd hab (by simp)
            | some s2' =>
              simp only [Option.some.injEq, Prod.mk.injEq] at hab
              rw [← hab.2]
              exact Option.some_ne_none _
        · rw [if_neg (by omega), if_neg (by omega)] at hab
          simp only [Option.some.injEq, Prod.mk.injEq] at hab
          rw [← hab.2]
          exact Option.some_ne_none _
        · rw [if_neg (by omega), if_pos hgt] at hab
          rcases hsp : splitN rr (k - w) with _ | ⟨t1, t2⟩
          · simp only [hsp] at hab; exact absurd hab (by simp)
          · simp only [hsp, Option.some.injEq, Prod.mk.injEq] at hab
            rw [← hab.2]
            refine ih rr (RNode.sizeOf_right w (some ll) rr f) hr (k - w) ?_ t1 t2 hsp
            rw [RNode.len_lsome] at hk
            simp only [optLen] at hk
            omega

/-- C1: for every well-formed node `N` (the documented invariant: leaves
with correct weights, internal nodes with both children present and
weight equal to the left subtree length, which also forces
`N.length() < 2^64` to be meaningful on a real machine, stated here as a
hypothesis) and every split point `k ≤ N.length()`, `split(N, k)`
completes and returns a pair whose first part represents exactly the
first `k` elements, whose second part represents the remainder, whose
`length()` methods sum to `N.length()`, and whose concatenation is
content-equal to `N`. -/
theorem split_roundtrip_c1 {α : Type} (N : RNode α) (k : Nat)
    (hwf : SWF N = true) (hk : k ≤ N.len) (hreal : N.len < W64) :
    ∃ L Rt : RNode α, splitN N k = some (some L, some Rt) ∧
      L.toStr = N.toStr.take k ∧ Rt.toStr = N.toStr.drop k ∧
      L.len + Rt.len = N.len ∧
      (mkConcat L (some Rt)).toStr = N.toStr := by
  obtain ⟨L, R2, hs, hwfL, hlenL, hstrL, hwfR2, hlenR2, hstrR2⟩ :=
    split_spec N (SWF_imp_WFW N hwf) k hk hreal
  cases R2 with
  | none => exact absurd rfl (split_snd_ne_none N hwf k hk _ _ hs)
  | some Rt =>
    simp only [optLen, optToStr] at hlenR2 hstrR2
    refine ⟨L, Rt, hs, hstrL, hstrR2, by omega, ?_⟩
    rw [toStr_mkConcat]
    simp only [optToStr, hstrL, hstrR2]
    exact List.take_append_drop k N.toStr

/-- A concrete node for the C1 witness: the concatenation of the leaves
`"ab"` and `"c"`. -/
def exNodeC1 : RNode Char :=
  RNode.mk 2 (some (RNode.mk 2 none none ['a', 'b']))
    (some (RNode.mk 1 none none ['c'])) []

theorem split_roundtrip_c1_witness :
    SWF exNodeC1 = true ∧ 1 ≤ exNodeC1.len ∧ exNodeC1.len < W64 ∧
    (∃ L Rt : RNode Char, splitN exNodeC1 1 = some (some L, some Rt) ∧
      L.toStr = exNodeC1.toStr.take 1 ∧ Rt.toStr = exNodeC1.toStr.drop 1 ∧
      L.len + Rt.len = exNodeC1.len ∧
      (mkConcat L (some Rt)).toStr = exNodeC1.toStr) :=
  ⟨by decide, by decide, by decide,
   split_roundtrip_c1 exNodeC1 1 (by decide) (by decide) (by decide)⟩

/-- C4 counterexample: on the rope built from `"a"` the index 1 is out of
range (`1 ≥ length() = 1`), yet `at(1)` does not raise the OutOfRange
error — it performs the unchecked node access (undefined behaviour),
because `rope::at` only tests the root pointer for null before calling
the node-level element access. -/
theorem at_oob_counterexample_c4 :
    1 ≥ ropeLen (ropeOfList ['a']) ∧
    ropeAt (ropeOfList ['a']) 1 ≠ AtRes.oob ∧
    ropeAt (ropeOfList ['a']) 1 = AtRes.ok none := by
  refine ⟨by decide, by decide, by decide⟩

/-- C4 (amended): `at(index)` raises OutOfRange exactly when the root is
absent.  On any rope with a present, weakly well-formed root, `at` never
raises: it returns the element at `index` of the flattened content when
`index < length()` and performs an unchecked out-of-bounds access
(undefined behaviour, `ok none`) when `index ≥ length()`. -/
theorem at_amended_c4 {α : Type} (R : Rope α) (N : RNode α)
    (hroot : R.root = some N) (hwf : WFW N = true) (i : Nat) :
    ropeAt R i = AtRes.ok (ropeToStr R)[i]? ∧
    (∀ S : Rope α, S.root = none → ropeAt S i = AtRes.oob) := by
  constructor
  · unfold ropeAt
    rw [hroot, ropeToStr_some hroot]
    show AtRes.ok (N.getItem i) = AtRes.ok N.toStr[i]?
    rw [getItem_eq_getElem N hwf i]
  · intro S hnone
    unfold ropeAt
    rw [hnone]

theorem at_amended_c4_witness :
    (ropeOfList ['a', 'b']).root = some (RNode.mk 2 none none ['a', 'b']) ∧
    WFW (RNode.mk 2 none none ['a', 'b']) = true ∧
    (ropeAt (ropeOfList ['a', 'b']) 1 =
       AtRes.ok (ropeToStr (ropeOfList ['a', 'b']))[1]? ∧
     (∀ S : Rope Char, S.root = none → ropeAt S 1 = AtRes.oob)) :=
  ⟨rfl, by decide,
   at_amended_c4 (ropeOfList ['a', 'b']) (RNode.mk 2 none none ['a', 'b']) rfl
     (by decide) 1⟩

/-- C9: the internal node built by the concatenation constructor (weight
= `a.length()`) has `length() = a.length() + b.length()`, and `append`
lengthens a rope by exactly the length of the appended rope. -/
theorem concat_len_additive_c9 {α : Type} (a b : RNode α) (R S : Rope α)
    (NR NS : RNode α) (hR : R.root = some NR) (hS : S.root = some NS) :
    (mkConcat a (some b)).len = a.len + b.len ∧
    (∃ r' : Rope α, ropeAppend R S = some r' ∧
       ropeLen r' = ropeLen R + ropeLen S) := by
  constructor
  · rw [len_mkConcat]
    rfl
  · refine ⟨⟨some (mkConcat NR (some NS))⟩, ?_, ?_⟩
    · unfold ropeAppend
      rw [hR, hS]
    · rw [ropeLen_some (R := ⟨some (mkConcat NR (some NS))⟩) rfl,
        len_mkConcat, ropeLen_some hR, ropeLen_some hS]
      rfl

theorem concat_len_additive_c9_witness :
    (ropeOfList ['a']).root = some (RNode.mk 1 none none ['a']) ∧
    (ropeOfList ['b', 'c']).root = some (RNode.mk 2 none none ['b', 'c']) ∧
    ((mkConcat (RNode.mk 1 none none ['a'])
        (some (RNode.mk 2 none none ['b', 'c']))).len =
      (RNode.mk 1 none none ['a'] : RNode Char).len +
        (RNode.mk 2 none none ['b', 'c'] : RNode Char).len ∧
     ∃ r' : Rope Char, ropeAppend (ropeOfList ['a']) (ropeOfList ['b', 'c']) = some r' ∧
       ropeLen r' = ropeLen (ropeOfList ['a']) + ropeLen (ropeOfList ['b', 'c'])) :=
  ⟨rfl, rfl,
   concat_len_additive_c9 (RNode.mk 1 none none ['a'])
     (RNode.mk 2 none none ['b', 'c']) (ropeOfList ['a']) (ropeOfList ['b', 'c'])
     (RNode.mk 1 none none ['a']) (RNode.mk 2 none none ['b', 'c']) rfl rfl⟩

/-- C2 evaluation at the failing input: the rope `"sometext"` built as
`"some"` appended with `"text"` flattens correctly, but
`substring(2, 4)` returns `"some"` — not the four contiguous elements
`"mete"` starting at position 2 — because the leaf case of the node
traversal returns the whole fragment (ignoring `start`) whenever
`len ≥ weight`, and the right-subtree recursion passes `weight` instead
of 0 as the start offset. -/
theorem substr_eval_c2 :
    ∃ r : Rope Char,
      ropeAppend (ropeOfList ['s', 'o', 'm', 'e']) (ropeOfList ['t', 'e', 'x', 't']) =
        some r ∧
      ropeToStr r = ['s', 'o', 'm', 'e', 't', 'e', 'x', 't'] ∧
      ropeLen r = 8 ∧
      ropeSubstr r 2 4 = SubRes.ok ['s', 'o', 'm', 'e'] ∧
      ropeSubstr r 2 4 ≠ SubRes.ok ['m', 'e', 't', 'e'] :=
  ⟨_, rfl, by decide, by decide, by decide, by decide⟩

/-- C3 evaluation at the failing input: after building `"sometext"` by an
append and inserting `"xx"` at index 2 — both public rope operations —
the resulting tree contains a node with exactly one present child
(`split`'s inside-left case nulls the right child of the reused node),
violating the documented both-children invariant. -/
theorem one_child_eval_c3 :
    ∃ r r2 : Rope Char,
      ropeAppend (ropeOfList ['s', 'o', 'm', 'e']) (ropeOfList ['t', 'e', 'x', 't']) =
        some r ∧
      ropeIns r 2 (ropeOfList ['x', 'x']) = MutRes.ok r2 ∧
      ropeToStr r2 = ['s', 'o', 'x', 'x', 'm', 'e', 't', 'e', 'x', 't'] ∧
      ∃ N : RNode Char, r2.root = some N ∧ hasOneChild N = true := by
  refine ⟨_, _, rfl, rfl, ?_, ?_⟩
  · decide
  · refine ⟨_, rfl, ?_⟩
    decide

/-- C7 counterexample: on the rope `"abcdefghxyPQRST"` (length 15, built
by two public appends as `concat("abcdefgh", concat("xy", "PQRST"))`),
the request `substring(7, 2)` is in range — `7 ≤ 15` and `7 + 2 ≤ 15` —
yet an out-of-range error is raised: the traversal calls
`substr` on the right subtree with start offset `weight = 8`, which
reaches the leaf `"PQRST"` with position `6 > 5` and makes
`std::basic_string::substr` throw `std::out_of_range`. -/
theorem substr_inrange_throw_c7 :
    ∃ r1 r2 : Rope Char,
      ropeAppend (ropeOfList ['x', 'y']) (ropeOfList ['P', 'Q', 'R', 'S', 'T']) =
        some r1 ∧
      ropeAppend (ropeOfList ['a', 'b', 'c', 'd', 'e', 'f', 'g', 'h']) r1 = some r2 ∧
      ropeLen r2 = 15 ∧
      ¬ (7 > ropeLen r2 ∨ 7 + 2 > ropeLen r2) ∧
      ropeSubstr r2 7 2 = SubRes.thrown := by
  refine ⟨_, _, rfl, rfl, ?_, ?_, ?_⟩
  · decide
  · decide
  · decide

/-- C7 (amended): the boundary OutOfRange of `substring` and `erase` is
raised exactly when `start > length()` or the wrapping `size_t` sum
`start + len` exceeds `length()`, and `insert` raises exactly when
`index > length()`; these checks precede any tree mutation, so a
boundary-rejected `insert` or `erase` leaves the rope unmodified (the
state carried by the `oob` result is the original rope).  (In-range
requests may still fault later in the traversal — see the
counterexample — which is outside the boundary check.) -/
theorem oob_checks_amended_c7 {α : Type} (R S : Rope α) (start l i : Nat) :
    (ropeSubstr R start l = SubRes.oob ↔
       (start > ropeLen R ∨ addW start l > ropeLen R)) ∧
    (∀ st : Rope α, ropeIns R i S = MutRes.oob st ↔ (ropeLen R < i ∧ st = R)) ∧
    (∀ st : Rope α, ropeErase R start l = MutRes.oob st ↔
       ((start > ropeLen R ∨ addW start l > ropeLen R) ∧ st = R)) := by
  refine ⟨?_, ?_, ?_⟩
  · by_cases hc : start > ropeLen R ∨ addW start l > ropeLen R
    · simp only [ropeSubstr, if_pos hc]
      exact iff_of_true trivial hc
    · refine iff_of_false ?_ hc
      simp only [ropeSubstr, if_neg hc]
      rcases hR : R.root with _ | n
      · simp
      · rcases hsub : n.substr start l with _ | v <;> simp [hsub]
  · intro st
    by_cases hlt : ropeLen R < i
    · simp only [ropeIns, if_pos hlt]
      constructor
      · intro h
        injection h with h
        exact ⟨hlt, h.symm⟩
      · intro ⟨_, h⟩
        rw [h]
    · simp only [ropeIns, if_neg hlt]
      rcases hS : S.root with _ | ns
      · simp [hS, hlt]
      · rcases hR : R.root with _ | nr
        · simp [hS, hR, hlt]
        · rcases hsp : splitN nr i with _ | ⟨f1, s1⟩
          · simp [hS, hR, hsp, hlt]
          · rcases f1 with _ | f1' <;> simp [hS, hR, hsp, hlt]
  · intro st
    by_cases hc : start > ropeLen R ∨ addW start l > ropeLen R
    · simp only [ropeErase, if_pos hc]
      constructor
      · intro h
        injection h with h
        exact ⟨hc, h.symm⟩
      · intro ⟨_, h⟩
        rw [h]
    · simp only [ropeErase, if_neg hc]
      rcases hR : R.root with _ | nr
      · simp [hR, hc]
      · rcases hsp : splitN nr start with _ | ⟨f1, s1⟩
        · simp [hR, hsp, hc]
        · rcases s1 with _ | s1'
          · simp [hR, hsp, hc]
          · rcases hsp2 : splitN s1' l with _ | ⟨m, s2⟩
            · simp [hR, hsp, hc, hsp2]
            · rcases f1 with _ | f1' <;> simp [hR, hsp, hc, hsp2]

/-- C6: on a rope `R` whose tree satisfies the documented invariant
(strong well-formedness), any index `i ≤ length(R)` and any rope `S`
with a well-formed tree (machine realism: the combined length fits in
`size_t`), `insert(i, S)` succeeds with content
`take i R ++ S ++ drop i R`, and the subsequent
`erase(i, length(S))` succeeds and restores a rope content-equal to
`R`. -/
theorem insert_erase_inverse_c6 {α : Type} (R S : Rope α) (NR NS : RNode α)
    (hR : R.root = some NR) (hS : S.root = some NS)
    (hwfR : SWF NR = true) (hwfS : WFW NS = true)
    (i : Nat) (hi : i ≤ ropeLen R) (hreal : ropeLen R + ropeLen S < W64) :
    ∃ r' : Rope α, ropeIns R i S = MutRes.ok r' ∧
      ropeToStr r' = (ropeToStr R).take i ++ ropeToStr S ++ (ropeToStr R).drop i ∧
      ∃ r'' : Rope α, ropeErase r' i (ropeLen S) = MutRes.ok r'' ∧
        ropeToStr r'' = ropeToStr R := by
  have hwfWR : WFW NR = true := SWF_imp_WFW NR hwfR
  rw [ropeLen_some hR] at hi hreal
  rw [ropeLen_some hS] at hreal
  have hNRstr : NR.toStr.length = NR.len := (len_eq_toStr_length NR hwfWR).symm
  have hNSstr : NS.toStr.length = NS.len := (len_eq_toStr_length NS hwfS).symm
  obtain ⟨L, P2, hsp1, hwfL, hlenL, hstrL, hwfP2, hlenP2, hstrP2⟩ :=
    split_spec NR hwfWR i hi (by omega)
  rcases P2 with _ | p2
  · exact absurd rfl (split_snd_ne_none NR hwfR i hi _ _ hsp1)
  simp only [optWFW, optLen, optToStr] at hwfP2 hlenP2 hstrP2
  refine ⟨⟨some (mkConcat (mkConcat L (some NS)) (some p2))⟩, ?_, ?_, ?_⟩
  · simp only [ropeIns,
      if_neg (show ¬ ropeLen R < i by rw [ropeLen_some hR]; omega), hS, hR, hsp1]
  · rw [ropeToStr_some (show (⟨some (mkConcat (mkConcat L (some NS)) (some p2))⟩ :
        Rope α).root = some (mkConcat (mkConcat L (some NS)) (some p2)) from rfl),
      toStr_mkConcat, toStr_mkConcat, ropeToStr_some hR, ropeToStr_some hS]
    simp only [optToStr, hstrL, hstrP2, List.append_assoc]
  · -- the erase half
    have hwfA : WFW (mkConcat L (some NS)) = true :=
      WFW_mkConcat L (some NS) hwfL (by simpa [optWFW] using hwfS)
    have hwfroot : WFW (mkConcat (mkConcat L (some NS)) (some p2)) = true :=
      WFW_mkConcat _ (some p2) hwfA (by simpa [optWFW] using hwfP2)
    have hlenA : (mkConcat L (some NS)).len = i + NS.len := by
      rw [len_mkConcat]; simp only [optLen]; omega
    have hlenroot : (mkConcat (mkConcat L (some NS)) (some p2)).len =
        NR.len + NS.len := by
      rw [len_mkConcat]; simp only [optLen]; omega
    have hstrroot : (mkConcat (mkConcat L (some NS)) (some p2)).toStr =
        NR.toStr.take i ++ (NS.toStr ++ NR.toStr.drop i) := by
      rw [toStr_mkConcat, toStr_mkConcat]
      simp only [optToStr, hstrL, hstrP2, List.append_assoc]
    have hlenr' : ropeLen (⟨some (mkConcat (mkConcat L (some NS)) (some p2))⟩ :
        Rope α) = NR.len + NS.len := by
      rw [ropeLen_some rfl, hlenroot]
    obtain ⟨F1, S1, hsp2, hwfF1, hlenF1, hstrF1, hwfS1, hlenS1, hstrS1⟩ :=
      split_spec (mkConcat (mkConcat L (some NS)) (some p2)) hwfroot i
        (by omega) (by omega)
    -- the second handle of the first erase split is present
    have hS1some : ∃ s1, S1 = some s1 := by
      by_cases hlt2 : i < (mkConcat (mkConcat L (some NS)) (some p2)).len
      · rcases S1 with _ | s1
        · exfalso; simp only [optLen] at hlenS1; omega
        · exact ⟨s1, rfl⟩
      · have hz : NS.len = 0 ∧ i = NR.len := by rw [hlenroot] at hlt2; omega
        have hAi : (mkConcat L (some NS)).len = i := by omega
        have : splitN (mkConcat (mkConcat L (some NS)) (some p2)) i =
            some (some (mkConcat L (some NS)), some p2) := by
          show splitN (RNode.mk (mkConcat L (some NS)).len
            (some (mkConcat L (some NS))) (some p2) []) i = _
          rw [splitN_lsome, hAi, if_neg (lt_irrefl i), if_neg (lt_irrefl i)]
        rw [this] at hsp2
        simp only [Option.some.injEq, Prod.mk.injEq] at hsp2
        exact ⟨p2, hsp2.2.symm⟩
    obtain ⟨s1, rfl⟩ := hS1some
    simp only [optWFW, optLen, optToStr] at hwfS1 hlenS1 hstrS1
    obtain ⟨M, S2, hsp3, hwfM, hlenM, hstrM, hwfS2, hlenS2, hstrS2⟩ :=
      split_spec s1 hwfS1 NS.len (by omega) (by omega)
    refine ⟨⟨some (mkConcat F1 S2)⟩, ?_, ?_⟩
    · have hcond : ¬ (i > ropeLen (⟨some (mkConcat (mkConcat L (some NS))
          (some p2))⟩ : Rope α) ∨
          addW i NS.len > ropeLen (⟨some (mkConcat (mkConcat L (some NS))
          (some p2))⟩ : Rope α)) := by
        rw [hlenr', addW_eq (by omega : i + NS.len < W64)]
        omega
      rw [ropeLen_some hS]
      simp only [ropeErase, if_neg hcond, hsp2, hsp3]
    · rw [ropeToStr_some (show (⟨some (mkConcat F1 S2)⟩ : Rope α).root =
          some (mkConcat F1 S2) from rfl), toStr_mkConcat, ropeToStr_some hR]
      have htake : (mkConcat (mkConcat L (some NS)) (some p2)).toStr.take i =
          NR.toStr.take i := by
        rw [hstrroot, List.take_append_eq_append_take, List.take_take, min_self]
        have hlt : (NR.toStr.take i).length = i := by
          rw [List.length_take]; omega
        rw [hlt, Nat.sub_self, List.take_zero, List.append_nil]
      have hdrop : s1.toStr.drop NS.len = NR.toStr.drop i := by
        rw [hstrS1, hstrroot, List.drop_drop]
        rw [show NR.toStr.take i ++ (NS.toStr ++ NR.toStr.drop i) =
            (NR.toStr.take i ++ NS.toStr) ++ NR.toStr.drop i from by
          rw [List.append_assoc]]
        rw [List.drop_append_eq_append_drop]
        have hlen2 : (NR.toStr.take i ++ NS.toStr).length = i + NS.len := by
          rw [List.length_append, List.length_take]
          omega
        have hz2 : i + NS.len - (NR.toStr.take i ++ NS.toStr).length = 0 := by
          rw [hlen2]
          omega
        rw [List.drop_of_length_le (le_of_eq hlen2), hz2, List.drop_zero,
          List.nil_append]
      rw [hstrF1, htake, hstrS2, hdrop]
      exact List.take_append_drop i NR.toStr

theorem insert_erase_inverse_c6_witness :
    (ropeOfList ['a', 'b']).root = some (RNode.mk 2 none none ['a', 'b']) ∧
    (ropeOfList ['c']).root = some (RNode.mk 1 none none ['c']) ∧
    SWF (RNode.mk 2 none none ['a', 'b']) = true ∧
    WFW (RNode.mk 1 none none ['c']) = true ∧
    1 ≤ ropeLen (ropeOfList ['a', 'b']) ∧
    ropeLen (ropeOfList ['a', 'b']) + ropeLen (ropeOfList ['c']) < W64 ∧
    (∃ r' : Rope Char, ropeIns (ropeOfList ['a', 'b']) 1 (ropeOfList ['c']) =
        MutRes.ok r' ∧
      ropeToStr r' = (ropeToStr (ropeOfList ['a', 'b'])).take 1 ++
        ropeToStr (ropeOfList ['c']) ++ (ropeToStr (ropeOfList ['a', 'b'])).drop 1 ∧
      ∃ r'' : Rope Char,
        ropeErase r' 1 (ropeLen (ropeOfList ['c'])) = MutRes.ok r'' ∧
        ropeToStr r'' = ropeToStr (ropeOfList ['a', 'b'])) :=
  ⟨rfl, rfl, by decide, by decide, by decide, by decide,
   insert_erase_inverse_c6 (ropeOfList ['a', 'b']) (ropeOfList ['c'])
     (RNode.mk 2 none none ['a', 'b']) (RNode.mk 1 none none ['c']) rfl rfl
     (by decide) (by decide) 1 (by decide) (by decide)⟩

theorem castMod (x : Nat) : ((x % W64 : Nat) : ZMod W64) = (x : ZMod W64) := by
  conv_rhs => rw [← Nat.mod_add_div x W64]
  push_cast
  simp [ZMod.natCast_self]

theorem fibLoop_lt : ∀ fuel n a b c d rc rd : Nat, rc < W64 →
    fibLoop fuel n a b c d rc rd < W64 := by
  intro fuel
  induction fuel with
  | zero => intro n a b c d rc rd hrc; exact hrc
  | succ fuel ih =>
    intro n a b c d rc rd hrc
    show (if n = 0 then rc else _) < W64
    by_cases hn : n = 0
    · rw [if_pos hn]; exact hrc
    · rw [if_neg hn]
      apply ih
      by_cases h2 : n % 2 = 1
      · rw [if_pos h2]
        exact Nat.mod_lt _ (by decide)
      · rw [if_neg h2]
        exact hrc

/-- The loop invariant of the wrapping matrix-power Fibonacci: if the
matrix state is `Q^s mod 2^64` and the row vector is the bottom row of
`Q^t mod 2^64`, the loop computes `fib (t + s * n) mod 2^64`. -/
theorem fibLoop_inv : ∀ fuel n s t a b c d rc rd : Nat,
    n ≤ fuel →
    1 ≤ s →
    (a : ZMod W64) = Nat.fib (s + 1) →
    (b : ZMod W64) = Nat.fib s →
    (c : ZMod W64) = Nat.fib s →
    (d : ZMod W64) = (Nat.fib (s + 1) : ZMod W64) - Nat.fib s →
    (rc : ZMod W64) = Nat.fib t →
    (rd : ZMod W64) = (Nat.fib (t + 1) : ZMod W64) - Nat.fib t →
    ((fibLoop fuel n a b c d rc rd : Nat) : ZMod W64) = Nat.fib (t + s * n) := by
  intro fuel
  induction fuel with
  | zero =>
    intro n s t a b c d rc rd hfuel hs ha hb hc hd hrc hrd
    have hn : n = 0 := by omega
    subst hn
    rw [show fibLoop 0 0 a b c d rc rd = rc from rfl, hrc, Nat.mul_zero,
      Nat.add_zero]
  | succ fuel ih =>
    intro n s t a b c d rc rd hfuel hs ha hb hc hd hrc hrd
    obtain ⟨u, rfl⟩ : ∃ u, s = u + 1 := ⟨s - 1, by omega⟩
    by_cases hn : n = 0
    · subst hn
      show ((if 0 = 0 then rc else _ : Nat) : ZMod W64) = _
      rw [if_pos rfl, hrc, Nat.mul_zero, Nat.add_zero]
    · show ((if n = 0 then rc else _ : Nat) : ZMod W64) = _
      rw [if_neg hn]
      have e1 : (Nat.fib (u + 2) : ZMod W64) = Nat.fib u + Nat.fib (u + 1) := by
        rw [Nat.fib_add_two]; push_cast; ring
      have e3 : (Nat.fib (2 * (u + 1) + 1) : ZMod W64) =
          (Nat.fib (u + 2) : ZMod W64) ^ 2 + (Nat.fib (u + 1) : ZMod W64) ^ 2 := by
        rw [Nat.fib_two_mul_add_one]; push_cast; ring
      have hfle : Nat.fib (u + 1) ≤ 2 * Nat.fib (u + 2) := by
        have h0 : Nat.fib (u + 1) ≤ Nat.fib (u + 2) := Nat.fib_le_fib_succ
        omega
      have e2 : (Nat.fib (2 * (u + 1)) : ZMod W64) =
          (Nat.fib (u + 1) : ZMod W64) *
            (2 * Nat.fib (u + 2) - Nat.fib (u + 1)) := by
        rw [Nat.fib_two_mul, Nat.cast_mul, Nat.cast_sub hfle]; push_cast; ring
      have e4 : (Nat.fib (t + (u + 1)) : ZMod W64) =
          (Nat.fib t : ZMod W64) * Nat.fib u +
            (Nat.fib (t + 1) : ZMod W64) * Nat.fib (u + 1) := by
        have := Nat.fib_add t u
        have hidx : t + u + 1 = t + (u + 1) := by omega
        rw [hidx] at this
        rw [this]; push_cast; ring
      have e5 : (Nat.fib (t + (u + 1) + 1) : ZMod W64) =
          (Nat.fib t : ZMod W64) * Nat.fib (u + 1) +
            (Nat.fib (t + 1) : ZMod W64) * Nat.fib (u + 2) := by
        have := Nat.fib_add t (u + 1)
        have hidx : t + (u + 1) + 1 = t + (u + 1) + 1 := rfl
        rw [this]; push_cast; ring
      have hA : (((a * a + b * c) % W64 : Nat) : ZMod W64) =
          Nat.fib (2 * (u + 1) + 1) := by
        rw [castMod]; push_cast
        rw [ha, hb, hc, e3, e1]; ring
      have hB : (((a * b + b * d) % W64 : Nat) : ZMod W64) =
          Nat.fib (2 * (u + 1)) := by
        rw [castMod]; push_cast
        rw [ha, hb, hd, e2, e1]; ring
      have hC : (((c * a + d * c) % W64 : Nat) : ZMod W64) =
          Nat.fib (2 * (u + 1)) := by
        rw [castMod]; push_cast
        rw [ha, hc, hd, e2, e1]; ring
      have hD : (((c * b + d * d) % W64 : Nat) : ZMod W64) =
          (Nat.fib (2 * (u + 1) + 1) : ZMod W64) - Nat.fib (2 * (u + 1)) := by
        rw [castMod]; push_cast
        rw [hb, hc, hd, e3, e2, e1]; ring
      rcases Nat.mod_two_eq_zero_or_one n with h2 | h2
      · rw [if_neg (by omega), if_neg (by omega)]
        have hrec := ih (n / 2) (2 * (u + 1)) t _ _ _ _ rc rd
          (by omega) (by omega) hA hB hC hD hrc hrd
        rw [hrec]
        have hn2 : n = 2 * (n / 2) := by omega
        have hidx : t + 2 * (u + 1) * (n / 2) = t + (u + 1) * n := by
          conv_rhs => rw [hn2]
          ring
        rw [hidx]
      · rw [if_pos h2, if_pos h2]
        have hRC : (((rc * a + rd * c) % W64 : Nat) : ZMod W64) =
            Nat.fib (t + (u + 1)) := by
          rw [castMod]; push_cast
          rw [hrc, hrd, ha, hc, e4, e1]; ring
        have hRD : (((rc * b + rd * d) % W64 : Nat) : ZMod W64) =
            (Nat.fib (t + (u + 1) + 1) : ZMod W64) - Nat.fib (t + (u + 1)) := by
          rw [castMod]; push_cast
          rw [hrc, hrd, hb, hd, e5, e4, e1]; ring
        have hrec := ih (n / 2) (2 * (u + 1)) (t + (u + 1)) _ _ _ _ _ _
          (by omega) (by omega) hA hB hC hD hRC hRD
        rw [hrec]
        have hn2 : n = 2 * (n / 2) + 1 := by omega
        have hidx : t + (u + 1) + 2 * (u + 1) * (n / 2) = t + (u + 1) * n := by
          conv_rhs => rw [hn2]
          ring
        rw [hidx]

/-- The `fib` helper of `rope.hpp` computes the standard Fibonacci
sequence reduced modulo 2^64 (the `size_t` width). -/
theorem fibCode_eq (n : Nat) : fibCode n = Nat.fib n % W64 := by
  have h1 : ((fibCode n : Nat) : ZMod W64) = (Nat.fib n : ZMod W64) := by
    have h := fibLoop_inv n n 1 0 1 1 1 0 0 1 (le_refl n) (le_refl 1)
      (by simp [Nat.fib_two]) (by simp [Nat.fib_one]) (by simp [Nat.fib_one])
      (by simp [Nat.fib_two, Nat.fib_one]) (by simp [Nat.fib_zero])
      (by simp [Nat.fib_one, Nat.fib_zero])
    rw [fibCode, h]
    norm_num
  have h2 : fibCode n % W64 = Nat.fib n % W64 :=
    (ZMod.natCast_eq_natCast_iff _ _ _).mp h1
  rw [← h2, Nat.mod_eq_of_lt]
  exact fibLoop_lt n n 1 1 1 0 0 1 (by decide)

/-- C8 counterexample: the `fib` helper does not compute the standard
Fibonacci sequence: its `size_t` arithmetic wraps, and at `n = 94`
(reachable from `is_balanced()` on a tree of depth 92) the result
differs from the true 94th Fibonacci number. -/
theorem fib_wrap_counterexample_c8 : fibCode 94 ≠ Nat.fib 94 := by
  rw [fibCode_eq]
  decide

/-- C8 (amended): `is_balanced()` is true when the root is absent, and
otherwise true exactly when `length(R) ≥ Fib(depth(root) + 2) mod 2^64`,
where `Fib` is the standard Fibonacci sequence — the helper computes it
in wrapping `size_t` arithmetic, which is exact only up to
`depth + 2 ≤ 93`. -/
theorem is_balanced_fib_c8 {α : Type} (R : Rope α) :
    (R.root = none → ropeIsBalanced R = true) ∧
    (∀ N : RNode α, R.root = some N →
      (ropeIsBalanced R = true ↔ Nat.fib (N.depth + 2) % W64 ≤ ropeLen R)) := by
  constructor
  · intro h
    simp [ropeIsBalanced, h]
  · intro N h
    simp only [ropeIsBalanced, h, decide_eq_true_eq]
    rw [fibCode_eq]

theorem is_balanced_fib_c8_witness :
    (ropeOfList ['a']).root = some (RNode.mk 1 none none ['a']) ∧
    (ropeIsBalanced (ropeOfList ['a']) = true ↔
      Nat.fib ((RNode.mk 1 none none ['a'] : RNode Char).depth + 2) % W64 ≤
        ropeLen (ropeOfList ['a'])) :=
  ⟨rfl, (is_balanced_fib_c8 (ropeOfList ['a'])).2 _ rfl⟩

/-- Build a rope by a chain of public `append` operations, each adding
one fragment. -/
def appChain : Rope Char → List (List Char) → Option (Rope Char)
  | r, [] => some r
  | r, s :: rest =>
    match ropeAppend r (ropeOfList s) with
    | none => none
    | some r' => appChain r' rest

/-- C10: a default-constructed rope has a present root — a leaf with an
empty fragment — `is_balanced()` is false (`0 < Fib(2) = 1`), the
Fibonacci interval list of length 0 is empty, and `balance()` reaches the
final slot fold where it reads `nodes[currMaxInterval]` of the empty slot
vector out of bounds: undefined behaviour reachable from the public
API in two calls. -/
theorem empty_balance_ub_c10 :
    (ropeOfList ([] : List Char)).root = some (RNode.mk 0 none none []) ∧
    ropeIsBalanced (ropeOfList ([] : List Char)) = false ∧
    fibList (ropeLen (ropeOfList ([] : List Char))) = [] ∧
    ∀ fuel : Nat, ropeBalance (ropeOfList ([] : List Char)) fuel = BalRes.ub :=
  ⟨rfl, by decide, by decide, fun _ => rfl⟩

/-- C5 evaluation at the failing inputs.  First, on the default
(empty-string) rope `balance()` is undefined behaviour — the slot vector
is empty and the final fold reads slot 0 out of bounds — so balancing is
not content-preserving there.  Second, on the 7-leaf rope `"aabcdef"`
built by six public appends of single characters, `balance()` completes
and preserves the content, but produces an unbalanced tree, and a second
`balance()` does so again (the leaf packing is a fixpoint here):
`balance(balance(R))` does not satisfy `is_balanced()`. -/
theorem balance_eval_c5 :
    (∀ fuel : Nat, ropeBalance (ropeOfList ([] : List Char)) fuel = BalRes.ub) ∧
    (∃ r B1 B2 : Rope Char,
      appChain (ropeOfList ['a']) [['a'], ['b'], ['c'], ['d'], ['e'], ['f']] =
        some r ∧
      ropeBalance r 100 = BalRes.ok B1 ∧
      ropeBalance B1 100 = BalRes.ok B2 ∧
      ropeToStr B1 = ropeToStr r ∧
      ropeToStr B2 = ropeToStr r ∧
      ropeIsBalanced B1 = false ∧
      ropeIsBalanced B2 = false) := by
  refine ⟨fun _ => rfl, ⟨_, _, _, rfl, rfl, rfl, ?_, ?_, ?_, ?_⟩⟩
  · decide
  · decide
  · decide
  · decide
